import Mathlib

/-!
# A shallow embedding of the guillotine single-threaded executor

This file embeds the core of the `guillotine` crate (a single-threaded
cooperative task executor over epoll/eventfd/timerfd) in Lean and proves
properties of the embedded definitions.

Modelling conventions:

* Machine integers (`u64`, fd numbers) are `Nat`; where kernel overflow
  matters (the eventfd counter) the bound `2 ^ 64 - 2` is explicit.
* Fallible operations return `Except`; a Rust `expect`/panic is a dedicated
  constructor (`panicked`) of the result type.
* Kernel state that the code interacts with is passed explicitly: the epoll
  interest list is an association list from fd number to future id, the
  eventfd counter is a `Nat`, and the results of `epoll_wait` are supplied
  as an oracle list (the kernel chooses which event fires).
* `HashMap`/`VecDeque` become association lists / lists; `Rc<RefCell<…>>`
  sharing is flattened into one record because everything runs on one
  thread and the `try_borrow_mut` calls in the source never overlap.
* Tasks (`Pin<Box<dyn Future<Output = ()>>>`) are modelled as finite trees:
  each poll performs its effects (spawning tasks, registering fds, sending
  a value on the `block_on` channel) and either completes or continues.
* Closing an fd (and the implicit epoll removal it causes) is not modelled:
  the lifetime of a waker's eventfd depends on `Arc` reference counts held
  by escaped `Waker` clones, and no property below depends on removal, so
  the modelled interest list only grows.
-/

namespace Guillotine

/-! ## Association list helpers (model of `HashMap` keyed by future id / fd) -/

/-- Look up a key in an association list (first match). -/
def lookupId {α : Type} (k : Nat) : List (Nat × α) → Option α
  | [] => none
  | (k2, v) :: rest => if k = k2 then some v else lookupId k rest

/-- Remove every entry with the given key. -/
def removeId {α : Type} (k : Nat) : List (Nat × α) → List (Nat × α)
  | [] => []
  | (k2, v) :: rest => if k = k2 then removeId k rest else (k2, v) :: removeId k rest

/-- Insert with `HashMap::insert` semantics: any previous binding for the key
is replaced. -/
def insertId {α : Type} (k : Nat) (v : α) (l : List (Nat × α)) : List (Nat × α) :=
  removeId k l ++ [(k, v)]

/-! ## `future_id.rs`: the future id generator -/

/-- `FutureIdGenerator { current: u64 }`.  `u64` is modelled as `Nat`; the
source increments with `+=`, which aborts on overflow rather than wrapping,
so the held value is genuinely non-decreasing. -/
structure FutureIdGenerator where
  current : Nat
deriving DecidableEq, Repr

/-- `FutureIdGenerator::fresh`: return the current value and post-increment. -/
def FutureIdGenerator.fresh (g : FutureIdGenerator) : Nat × FutureIdGenerator :=
  (g.current, ⟨g.current + 1⟩)

/-! ## `eventfd.rs` and `waker.rs`: the wakeup plane

An eventfd holds a 64-bit counter.  The kernel semantics of a non-blocking
`write(v)`: writing `2 ^ 64 - 1` fails with `EINVAL`; if adding `v` would
push the counter past the maximum `2 ^ 64 - 2` the write fails with
`EAGAIN` (would-block); otherwise the value is added. -/

/-- Errors the kernel can report for a `write` on a non-blocking eventfd. -/
inductive EventFdWriteError where
  | wouldBlock
  | invalid
deriving DecidableEq, Repr

/-- `EventFd::write(val)`: one 8-byte write of `val`.  The source returns
`Err(last_os_error())` for every failed write — it does not inspect the
error kind.  On success the new counter value is returned. -/
def EventFd.write (counter val : Nat) : Except EventFdWriteError Nat :=
  if val = 2 ^ 64 - 1 then .error .invalid
  else if 2 ^ 64 - 2 < counter + val then .error .wouldBlock
  else .ok (counter + val)

/-- Result of a Rust computation that may panic (`expect`). -/
inductive PanicOr (α : Type) where
  | ok (a : α)
  | panicked
deriving DecidableEq, Repr

/-- `GuillotineWaker::wake`: `self.eventfd.write(1).expect(…)` — a single
8-byte write of the value 1, with *any* failure (including would-block)
turned into a panic by the `expect`. -/
def GuillotineWaker.wake (counter : Nat) : PanicOr Nat :=
  match EventFd.write counter 1 with
  | .ok c => .ok c
  | .error _ => .panicked

/-! ## `epoll.rs`: the readiness registry -/

/-- The kernel error for `EPOLL_CTL_ADD` on an fd already in the interest
list.  (Other `epoll_ctl` failures cannot arise for the valid, live fds the
runtime passes, so `EEXIST` is the only error modelled.) -/
inductive EpollCtlError where
  | alreadyExists
deriving DecidableEq, Repr

/-- `Epoll::add(fd, future_id)`: `EPOLL_CTL_ADD` with
`EPOLLIN | EPOLLOUT | EPOLLET` and user-data = the future id.  The kernel
refuses with `EEXIST` when the fd is already subscribed, leaving the
existing subscription (and its task id) untouched; otherwise the pair is
added to the interest list. -/
def Epoll.add (regs : List (Nat × Nat)) (fd fid : Nat) :
    Except EpollCtlError (List (Nat × Nat)) :=
  if (lookupId fd regs).isSome then .error .alreadyExists
  else .ok (regs ++ [(fd, fid)])

/-- One outcome of `epoll_wait`, supplied by the kernel: either an event
whose user-data decodes to a future id, or a syscall error. -/
inductive WaitResult where
  | ready (fid : Nat)
  | fail
deriving DecidableEq, Repr

/-! ## `context.rs`: `RuntimeContext::register_file_descriptor` -/

/-- `RuntimeContext::register_file_descriptor`: call `Epoll::add` under the
current future id; an `AlreadyExists` error is deliberately ignored (the
interest list is returned unchanged); success installs the new list.  In
the source any *other* error panics via `expect`, but `EEXIST` is the only
failure the modelled kernel produces. -/
def RuntimeContext.register_file_descriptor (regs : List (Nat × Nat)) (fd fid : Nat) :
    List (Nat × Nat) :=
  match Epoll.add regs fd fid with
  | .error .alreadyExists => regs
  | .ok regs2 => regs2

/-! ## `time/mod.rs`: the `Sleep` and `Tick` leaf futures -/

/-- `RegisteredState` from `time/mod.rs` (the same two-state enum appears in
`net/tcp.rs` and `net/udp.rs`). -/
inductive RegisteredState where
  | unregistered
  | registered
deriving DecidableEq, Repr

/-- Outcome of `TimerFd::read`, supplied by the kernel: the number of
expirations since the last read, would-block (no expiration yet), or some
other read error. -/
inductive TimerRead where
  | expirations (n : Nat)
  | wouldBlock
  | otherError
deriving DecidableEq, Repr

/-- The `Sleep` future: its only state relevant here is the registration
flag (the timer fd itself is driven by the kernel, modelled by the
`TimerRead` outcome fed to `poll`). -/
structure Sleep where
  state : RegisteredState
deriving DecidableEq, Repr

/-- What `Sleep::poll` returns. -/
inductive SleepResult where
  | readyOk
  | pending
  | readyErr
deriving DecidableEq, Repr

/-- `Sleep::poll`: read the timer fd.  `Ok(_)` is `Ready(Ok(()))`;
would-block registers the fd (only if still unregistered, flipping the
flag) and returns `Pending`; any other error is `Ready(Err(e))`.  The
third component records whether `register_file_descriptor` was called
during this poll. -/
def Sleep.poll (s : Sleep) (r : TimerRead) : SleepResult × Sleep × Bool :=
  match r with
  | .expirations _ => (.readyOk, s, false)
  | .wouldBlock =>
      if s.state = RegisteredState.unregistered then
        (.pending, ⟨RegisteredState.registered⟩, true)
      else
        (.pending, s, false)
  | .otherError => (.readyErr, s, false)

/-- The `Tick` future created by `Interval::tick`: like `Sleep`, the state
relevant here is its (per-tick) registration flag. -/
structure Tick where
  state : RegisteredState
deriving DecidableEq, Repr

/-- What `Tick::poll` returns (`Ready(Ok(n))` carries the expiration
count). -/
inductive TickResult where
  | readyOk (n : Nat)
  | pending
  | readyErr
deriving DecidableEq, Repr

/-- `Tick::poll` (`<Tick as Future>::poll`): read the interval's timer fd;
`Ok(n)` is `Ready(Ok(n))`; would-block registers the fd only when still
unregistered and returns `Pending`; other errors are `Ready(Err(e))`.  The
third component records whether `register_file_descriptor` was called. -/
def Tick.poll (t : Tick) (r : TimerRead) : TickResult × Tick × Bool :=
  match r with
  | .expirations n => (.readyOk n, t, false)
  | .wouldBlock =>
      if t.state = RegisteredState.unregistered then
        (.pending, ⟨RegisteredState.registered⟩, true)
      else
        (.pending, t, false)
  | .otherError => (.readyErr, t, false)

/-! ## `task/mod.rs`: `JoinHandle::poll` -/

/-- The two failure modes of `std::sync::mpsc::Receiver::try_recv`: the
channel is empty, or the sending side has been dropped (disconnected). -/
inductive TryRecvError where
  | empty
  | disconnected
deriving DecidableEq, Repr

/-- `Poll<T>` from `std::task`. -/
inductive PollRes (α : Type) where
  | ready (a : α)
  | pending
deriving DecidableEq, Repr

/-- `<JoinHandle<T> as Future>::poll`: `rx.try_recv()`, mapping `Err(_)` —
any error, whether `Empty` or `Disconnected` — to `Pending`, and `Ok(t)`
to `Ready(t)`. -/
def JoinHandle.poll {T : Type} (r : Except TryRecvError T) : PollRes T :=
  match r with
  | .error _ => .pending
  | .ok t => .ready t

/-! ## `runtime/mod.rs`: tasks, runtime state and the executor loop

A task (`Pin<Box<dyn Future<Output = ()>>>`) is modelled as a finite tree:
one poll of `node spawns sends fds rest` spawns the listed tasks into the
runtime, registers the listed fd numbers under the polling task's id, sends
the listed values on the `block_on` result channel, and then returns
`Ready(())` when `rest = none` or `Pending` with continuation `t` when
`rest = some t`.  `V` is the output type of the future handed to
`block_on`. -/

inductive Task (V : Type) : Type where
  | node (spawns : List (Task V)) (sends : List V) (fds : List Nat)
      (rest : Option (Task V)) : Task V

/-- The runtime state.  `Runtime { inner: Rc<RefCell<RuntimeInner>>, futures }`
and `RuntimeInner { epoll, future_id_generator, new_futures }` are flattened
into one record (single thread, non-overlapping borrows).  `registrations`
is the epoll interest list (fd number to future id), `nextFd` the kernel's
allocator for the eventfds minted by `create_waker`, `futures` the parked
map from future id to (waker eventfd number, task), and `channel` the
values sent on the `block_on` rendezvous channel. -/
structure Runtime (V : Type) where
  future_id_generator : FutureIdGenerator
  nextFd : Nat
  new_futures : List (Nat × Task V)
  futures : List (Nat × Nat × Task V)
  registrations : List (Nat × Nat)
  channel : List V

/-- `RuntimeInner::spawn`: draw a fresh id and push the (id, task) pair onto
the back of the `new_futures` FIFO. -/
def Runtime.spawn {V : Type} (s : Runtime V) (t : Task V) : Nat × Runtime V :=
  match s.future_id_generator.fresh with
  | (fid, g) =>
    (fid, { s with future_id_generator := g, new_futures := s.new_futures ++ [(fid, t)] })

/-- Spawn every task of a list in order (the `context.spawn` calls a future
makes during one poll). -/
def Runtime.spawnAll {V : Type} : Runtime V → List (Task V) → Runtime V
  | s, [] => s
  | s, t :: ts => Runtime.spawnAll (s.spawn t).2 ts

/-- Register every fd of a list under the given future id (the
`context.register_file_descriptor` calls a future makes during one poll). -/
def Runtime.registerAll {V : Type} : Runtime V → Nat → List Nat → Runtime V
  | s, _, [] => s
  | s, fid, fd :: fds =>
      Runtime.registerAll
        { s with registrations := RuntimeContext.register_file_descriptor s.registrations fd fid }
        fid fds

/-- Apply the effects one poll of a task performs, in the model's fixed
order: spawns, then fd registrations (under the polled task's id `fid`),
then channel sends.  (In the source these interleave in the future's own
program order; no property below depends on the interleaving.) -/
def Runtime.applyPollEffects {V : Type} (s : Runtime V) (fid : Nat)
    (spawns : List (Task V)) (sends : List V) (fds : List Nat) : Runtime V :=
  match (s.spawnAll spawns).registerAll fid fds with
  | s2 => { s2 with channel := s2.channel ++ sends }

/-- Observable scheduling events of one loop iteration, used to state the
ordering properties. -/
inductive Event where
  | firstPoll (fid : Nat)
  | waitCall
  | repoll (fid : Nat)
  | warnUnknown (fid : Nat)
deriving DecidableEq, Repr

/-- Result of one iteration of the loop body of `Runtime::block`. -/
inductive StepRes (V : Type) where
  | next (s : Runtime V) (ev : List Event)
  | halt
  | panicked (ev : List Event)
  | blocked (ev : List Event)

/-- The admit-and-poll path of `Runtime::block` (the `if let Some((future_id,
mut new_future)) = front` branch): mint a waker (`create_waker`: a fresh
eventfd, added to epoll under the id — any add failure is an `expect`
panic), poll the task once with the ambient context set, and on `Pending`
insert (id, waker, continuation) into the parked map.  `s` is the state
*after* the head was popped. -/
def Runtime.pollNewFuture {V : Type} (s : Runtime V) (fid : Nat) (t : Task V) : StepRes V :=
  match Epoll.add s.registrations s.nextFd fid with
  | .error _ => .panicked []
  | .ok regs =>
    match t with
    | .node spawns sends fds rest =>
      match { s with nextFd := s.nextFd + 1,
                     registrations := regs : Runtime V }.applyPollEffects fid spawns sends fds with
      | s2 =>
        match rest with
        | none => .next s2 [.firstPoll fid]
        | some t2 =>
            .next { s2 with futures := insertId fid (s.nextFd, t2) s2.futures }
              [.firstPoll fid]

/-- The block-and-resume path of `Runtime::block` (the `else` branch):
`epoll.wait().expect(…)`, then poll the parked task the returned id names;
`Ready` removes it, `Pending` leaves the continuation in place, and an id
that is not parked is a warn-and-continue.  The oracle supplies the kernel's
`epoll_wait` outcomes; an exhausted oracle means no event ever arrives and
the thread stays blocked. -/
def Runtime.waitBranch {V : Type} (s : Runtime V) (oracle : List WaitResult) :
    StepRes V × List WaitResult :=
  match oracle with
  | [] => (.blocked [.waitCall], [])
  | .fail :: rest => (.panicked [.waitCall], rest)
  | .ready fid :: rest =>
    match lookupId fid s.futures with
    | none => (.next s [.waitCall, .warnUnknown fid], rest)
    | some (wfd, .node spawns sends fds k) =>
      match s.applyPollEffects fid spawns sends fds with
      | s1 =>
        match k with
        | none =>
            (.next { s1 with futures := removeId fid s1.futures } [.waitCall, .repoll fid],
             rest)
        | some t2 =>
            (.next { s1 with futures := insertId fid (wfd, t2) s1.futures }
              [.waitCall, .repoll fid], rest)

/-- One iteration of the loop in `Runtime::block`: pop the front of
`new_futures`; if there was no new future and the parked map is empty,
break; with a new future take the admit-and-poll path; otherwise the
block-and-resume path. -/
def Runtime.blockStep {V : Type} (s : Runtime V) (oracle : List WaitResult) :
    StepRes V × List WaitResult :=
  match s.new_futures with
  | [] =>
      if s.futures.isEmpty then (.halt, oracle)
      else s.waitBranch oracle
  | (fid, t) :: tail =>
      ({ s with new_futures := tail }.pollNewFuture fid t, oracle)

/-- Outcome of running `Runtime::block` to its end. -/
inductive RunRes (V : Type) where
  | done (s : Runtime V)
  | panicked
  | blocked
  | outOfFuel

/-- `Runtime::block`, run for at most `fuel` iterations, also collecting the
event trace.  (The source loop has no fuel; `outOfFuel` only marks that the
modelled run was cut short.) -/
def Runtime.blockRun {V : Type} : Nat → Runtime V → List WaitResult → RunRes V × List Event
  | 0, _, _ => (.outOfFuel, [])
  | fuel + 1, s, oracle =>
    match s.blockStep oracle with
    | (.halt, _) => (.done s, [])
    | (.panicked ev, _) => (.panicked, ev)
    | (.blocked ev, _) => (.blocked, ev)
    | (.next s2 ev, oracle2) =>
      match Runtime.blockRun fuel s2 oracle2 with
      | (r, evs) => (r, ev ++ evs)

/-- `Runtime::new`: fresh generator, empty FIFO, empty parked map, empty
epoll interest list.  (`nextFd` starts at 0: fd numbers only need to be
distinct.) -/
def Runtime.new (V : Type) : Runtime V :=
  { future_id_generator := ⟨0⟩, nextFd := 0, new_futures := [], futures := [],
    registrations := [], channel := [] }

/-- The future handed to `block_on`, as the executor sees it: a list of
pending polls (each with the spawns and fd registrations that poll
performs) followed by a final poll that yields the value. -/
structure ValFut (V : Type) where
  pends : List (List (Task V) × List Nat)
  value : V

/-- The wrapping `block_on` builds:
`async move { let result = future.await; tx.send(result).unwrap() }` —
replay the wrapped future's polls; the poll on which it completes sends the
value on the channel and returns `Ready(())`. -/
def wrapFuture {V : Type} : List (List (Task V) × List Nat) → V → Task V
  | [], v => .node [] [v] [] none
  | (sp, fds) :: rest, v => .node sp [] fds (some (wrapFuture rest v))

/-- `Runtime::block_on`: spawn the wrapped future onto a fresh runtime, run
`block`, then `rx.recv().expect(…)` — `none` models both a panicking `recv`
and a `block` that never returns. -/
def Runtime.block_on {V : Type} (f : ValFut V) (fuel : Nat) (oracle : List WaitResult) :
    Option V :=
  match Runtime.blockRun fuel ((Runtime.new V).spawn (wrapFuture f.pends f.value)).2 oracle with
  | (.done s2, _) => s2.channel.head?
  | _ => none

/-! ## Derived views and invariants of the runtime state -/

/-- The ids currently queued in the `new_futures` FIFO, front first. -/
def Runtime.queueIds {V : Type} (s : Runtime V) : List Nat :=
  s.new_futures.map Prod.fst

/-- The ids currently in the parked map. -/
def Runtime.parkedIds {V : Type} (s : Runtime V) : List Nat :=
  s.futures.map Prod.fst

/-- The id invariant of the runtime state: no id occurs twice across the
FIFO and the parked map together, and every held id is below the
generator's next value. -/
def IdInvariant {V : Type} (s : Runtime V) : Prop :=
  (s.queueIds ++ s.parkedIds).Nodup ∧
    ∀ id ∈ s.queueIds ++ s.parkedIds, id < s.future_id_generator.current

/-- The FIFO carries ids in strictly increasing (= spawn) order, all below
the generator.  Holds for every state the executor reaches, since ids are
handed out by a post-incremented counter and enqueued at the back. -/
def SortedQueue {V : Type} (s : Runtime V) : Prop :=
  s.queueIds.Pairwise (· < ·) ∧ ∀ id ∈ s.queueIds, id < s.future_id_generator.current

/-- The ids of the first-poll events of a trace, in order. -/
def firstPollIds (evs : List Event) : List Nat :=
  evs.filterMap fun e =>
    match e with
    | .firstPoll i => some i
    | _ => none

/-- The event list of a step result. -/
def StepRes.events {V : Type} : StepRes V → List Event
  | .next _ ev => ev
  | .halt => []
  | .panicked ev => ev
  | .blocked ev => ev

/-! ## Theorems -/

/-- Helper: the admit-and-poll path never breaks out of the loop. -/
theorem pollNewFuture_ne_halt {V : Type} (s : Runtime V) (fid : Nat) (t : Task V) :
    s.pollNewFuture fid t ≠ StepRes.halt := by
  unfold Runtime.pollNewFuture
  cases Epoll.add s.registrations s.nextFd fid with
  | error e => simp
  | ok regs =>
    cases t with
    | node sp se f rest => cases rest <;> simp

/-- Helper: the block-and-resume path never breaks out of the loop. -/
theorem waitBranch_ne_halt {V : Type} (s : Runtime V) (oracle : List WaitResult) :
    (s.waitBranch oracle).1 ≠ StepRes.halt := by
  unfold Runtime.waitBranch
  cases oracle with
  | nil => simp
  | cons w rest =>
    cases w with
    | fail => simp
    | ready fid =>
      cases h : lookupId fid s.futures with
      | none => simp [h]
      | some p =>
        obtain ⟨wfd, t⟩ := p
        cases t with
        | node sp se f k => cases k <;> simp [h]

/-- Claim C2: one iteration of `Runtime::block` returns (breaks out of the
loop) exactly when the `new_futures` FIFO and the parked map are both
empty; whenever either is non-empty the iteration continues, panics or
stays blocked in `wait`, but never returns. -/
theorem block_returns_iff_both_empty {V : Type} (s : Runtime V) (oracle : List WaitResult) :
    (s.blockStep oracle).1 = StepRes.halt ↔ s.new_futures = [] ∧ s.futures = [] := by
  cases hq : s.new_futures with
  | nil =>
    cases hf : s.futures with
    | nil => simp [Runtime.blockStep, hq, hf]
    | cons x xs =>
      simp only [Runtime.blockStep, hq, hf, List.isEmpty_cons, Bool.false_eq_true, if_false]
      simp only [hf] at *
      constructor
      · intro h
        exact absurd h (waitBranch_ne_halt _ _)
      · rintro ⟨-, h⟩
        exact absurd h (List.cons_ne_nil x xs)
  | cons p tail =>
    obtain ⟨fid, t⟩ := p
    simp only [Runtime.blockStep, hq]
    constructor
    · intro h
      exact absurd h (pollNewFuture_ne_halt _ _ _)
    · rintro ⟨h, -⟩
      exact absurd h (List.cons_ne_nil (fid, t) tail)

/-- Claim C8: when `epoll_wait` hands back an id that is not in the parked
map (and the FIFO is empty, which is the only situation in which `wait` is
called), the iteration warns and continues with the *same* state — parked
map, FIFO, registrations and channel all unchanged — and its trace shows
the wait and the warning but no poll of any task. -/
theorem warn_unknown_id_continues {V : Type} (s : Runtime V) (fid : Nat)
    (rest : List WaitResult)
    (h1 : s.new_futures = []) (h2 : s.futures ≠ []) (h3 : lookupId fid s.futures = none) :
    s.blockStep (WaitResult.ready fid :: rest) =
      (StepRes.next s [Event.waitCall, Event.warnUnknown fid], rest) := by
  cases hf : s.futures with
  | nil => exact absurd hf h2
  | cons x xs =>
    rw [hf] at h3
    simp [Runtime.blockStep, h1, hf, Runtime.waitBranch, h3]

/-- Witness for `warn_unknown_id_continues`: a runtime with one parked task
(id 0) receiving a wakeup for the unknown id 5. -/
theorem warn_unknown_id_continues_witness :
    Runtime.blockStep
        { future_id_generator := ⟨1⟩, nextFd := 1,
          new_futures := [], futures := [(0, 0, Task.node ([] : List (Task Nat)) [] [] none)],
          registrations := [(0, 0)], channel := [] }
        [WaitResult.ready 5] =
      (StepRes.next
        { future_id_generator := ⟨1⟩, nextFd := 1,
          new_futures := [], futures := [(0, 0, Task.node ([] : List (Task Nat)) [] [] none)],
          registrations := [(0, 0)], channel := [] }
        [Event.waitCall, Event.warnUnknown 5], []) :=
  warn_unknown_id_continues _ 5 [] rfl (List.cons_ne_nil _ _) rfl

/-- Claim C10: if `epoll_wait` reports an error, the `expect` in
`Runtime::block` panics: the iteration ends in a panic and the whole
`block` run aborts with a panic rather than returning normally or
retrying. -/
theorem epoll_wait_error_panics {V : Type} (s : Runtime V) (rest : List WaitResult)
    (fuel : Nat) (h1 : s.new_futures = []) (h2 : s.futures ≠ []) :
    s.blockStep (WaitResult.fail :: rest) = (StepRes.panicked [Event.waitCall], rest) ∧
      (Runtime.blockRun (fuel + 1) s (WaitResult.fail :: rest)).1 = RunRes.panicked := by
  cases hf : s.futures with
  | nil => exact absurd hf h2
  | cons x xs =>
    have hstep : s.blockStep (WaitResult.fail :: rest) =
        (StepRes.panicked [Event.waitCall], rest) := by
      simp [Runtime.blockStep, h1, hf, Runtime.waitBranch]
    exact ⟨hstep, by simp [Runtime.blockRun, hstep]⟩

/-- Witness for `epoll_wait_error_panics`: a runtime with one parked task
whose `epoll_wait` fails. -/
theorem epoll_wait_error_panics_witness :
    Runtime.blockStep
        { future_id_generator := ⟨1⟩, nextFd := 1,
          new_futures := [], futures := [(0, 0, Task.node ([] : List (Task Nat)) [] [] none)],
          registrations := [(0, 0)], channel := [] }
        [WaitResult.fail] =
      (StepRes.panicked [Event.waitCall], []) ∧
      (Runtime.blockRun 1
        { future_id_generator := ⟨1⟩, nextFd := 1,
          new_futures := [], futures := [(0, 0, Task.node ([] : List (Task Nat)) [] [] none)],
          registrations := [(0, 0)], channel := [] }
        [WaitResult.fail]).1 = RunRes.panicked :=
  epoll_wait_error_panics _ [] 0 rfl (List.cons_ne_nil _ _)

/-- Claim C1: for every value `v`, `block_on` of the trivially ready future
`async { v }` (no pending polls) returns exactly `v`, for any run long
enough for the two loop iterations involved and any wait oracle. -/
theorem block_on_ready_returns_value {V : Type} (v : V) (fuel : Nat)
    (h : 2 ≤ fuel) (oracle : List WaitResult) :
    Runtime.block_on ⟨[], v⟩ fuel oracle = some v := by
  obtain ⟨k, rfl⟩ := Nat.exists_eq_add_of_le h
  rw [Nat.add_comm 2 k]
  rfl

/-- Witness for `block_on_ready_returns_value`: `block_on(async { 42 }) = 42`. -/
theorem block_on_ready_returns_value_witness :
    Runtime.block_on ⟨[], (42 : Nat)⟩ 2 [] = some 42 :=
  block_on_ready_returns_value 42 2 (by decide) []

/-! ### Association-list lemmas -/

theorem lookupId_isSome_mem {α : Type} (k : Nat) (l : List (Nat × α)) :
    (lookupId k l).isSome = true ↔ k ∈ l.map Prod.fst := by
  induction l with
  | nil => simp [lookupId]
  | cons p rest ih =>
    obtain ⟨k2, v⟩ := p
    by_cases h : k = k2 <;> simp [lookupId, h, ih]

theorem lookupId_mem {α : Type} {k : Nat} {l : List (Nat × α)} {v : α}
    (h : lookupId k l = some v) : k ∈ l.map Prod.fst :=
  (lookupId_isSome_mem k l).mp (by rw [h]; rfl)

theorem removeId_sublist {α : Type} (k : Nat) (l : List (Nat × α)) :
    (removeId k l).Sublist l := by
  induction l with
  | nil => simp [removeId]
  | cons p rest ih =>
    obtain ⟨k2, v⟩ := p
    by_cases h : k = k2
    · rw [removeId, if_pos h]
      exact ih.trans (List.sublist_cons_self _ _)
    · rw [removeId, if_neg h]
      exact ih.cons₂ _

theorem not_mem_removeId {α : Type} (k : Nat) (l : List (Nat × α)) :
    k ∉ (removeId k l).map Prod.fst := by
  induction l with
  | nil => simp [removeId]
  | cons p rest ih =>
    obtain ⟨k2, v⟩ := p
    by_cases h : k = k2
    · rw [removeId, if_pos h]; exact ih
    · rw [removeId, if_neg h]
      simp only [List.map_cons, List.mem_cons]
      rintro (rfl | hk)
      · exact h rfl
      · exact ih hk

theorem removeId_eq_of_not_mem {α : Type} {k : Nat} {l : List (Nat × α)}
    (h : k ∉ l.map Prod.fst) : removeId k l = l := by
  induction l with
  | nil => rfl
  | cons p rest ih =>
    obtain ⟨k2, v⟩ := p
    simp only [List.map_cons, List.mem_cons, not_or] at h
    rw [removeId, if_neg h.1, ih h.2]

/-! ### Projection lemmas for the state transformers -/

theorem spawn_snd {V : Type} (s : Runtime V) (t : Task V) :
    (s.spawn t).2 =
      { s with future_id_generator := ⟨s.future_id_generator.current + 1⟩,
               new_futures := s.new_futures ++ [(s.future_id_generator.current, t)] } := rfl

theorem spawnAll_futures {V : Type} (ts : List (Task V)) :
    ∀ s : Runtime V, (s.spawnAll ts).futures = s.futures := by
  induction ts with
  | nil => intro s; rfl
  | cons t ts ih => intro s; rw [Runtime.spawnAll, ih]; rfl

theorem spawnAll_gen_le {V : Type} (ts : List (Task V)) :
    ∀ s : Runtime V,
      s.future_id_generator.current ≤ (s.spawnAll ts).future_id_generator.current := by
  induction ts with
  | nil => intro s; exact Nat.le_refl _
  | cons t ts ih =>
    intro s
    rw [Runtime.spawnAll]
    refine Nat.le_trans ?_ (ih _)
    rw [spawn_snd]
    exact Nat.le_succ _

theorem spawnAll_queue_mem {V : Type} (ts : List (Task V)) :
    ∀ (s : Runtime V) (j : Nat), j ∈ (s.spawnAll ts).queueIds →
      j ∈ s.queueIds ∨ s.future_id_generator.current ≤ j := by
  induction ts with
  | nil => intro s j h; exact Or.inl h
  | cons t ts ih =>
    intro s j h
    rw [Runtime.spawnAll] at h
    rcases ih _ j h with h2 | h2
    · rw [spawn_snd] at h2
      simp only [Runtime.queueIds, List.map_append, List.map_cons, List.map_nil,
        List.mem_append, List.mem_cons, List.not_mem_nil, or_false] at h2 ⊢
      rcases h2 with h2 | h2
      · exact Or.inl h2
      · exact Or.inr (Nat.le_of_eq h2.symm)
    · rw [spawn_snd] at h2
      exact Or.inr (Nat.le_trans (Nat.le_succ _) h2)

theorem spawnAll_sorted {V : Type} (ts : List (Task V)) :
    ∀ s : Runtime V, SortedQueue s → SortedQueue (s.spawnAll ts) := by
  induction ts with
  | nil => intro s h; exact h
  | cons t ts ih =>
    intro s h
    obtain ⟨h1, h2⟩ := h
    rw [Runtime.spawnAll]
    refine ih _ ⟨?_, ?_⟩
    · rw [spawn_snd]
      simp only [Runtime.queueIds, List.map_append, List.map_cons, List.map_nil]
      rw [List.pairwise_append]
      refine ⟨h1, List.pairwise_singleton _ _, ?_⟩
      intro a ha b hb
      simp only [List.mem_cons, List.not_mem_nil, or_false] at hb
      subst hb
      exact h2 a ha
    · rw [spawn_snd]
      simp only [Runtime.queueIds, List.map_append, List.map_cons, List.map_nil,
        List.mem_append, List.mem_cons, List.not_mem_nil, or_false]
      rintro id (hid | rfl)
      · exact Nat.lt_succ_of_lt (h2 id hid)
      · exact Nat.lt_succ_self _

/-- Inserting a value that occurs in neither part between two `Nodup`
appended lists keeps them duplicate-free. -/
theorem nodup_insert_middle {c : Nat} {q p : List Nat}
    (h : (q ++ p).Nodup) (hc : c ∉ q ++ p) : (q ++ [c] ++ p).Nodup := by
  rw [List.append_assoc, List.singleton_append]
  exact (List.perm_middle.nodup_iff).mpr (List.nodup_cons.mpr ⟨hc, h⟩)

theorem spawnAll_inv {V : Type} (ts : List (Task V)) :
    ∀ s : Runtime V, IdInvariant s → IdInvariant (s.spawnAll ts) := by
  induction ts with
  | nil => intro s h; exact h
  | cons t ts ih =>
    intro s h
    obtain ⟨h1, h2⟩ := h
    simp only [Runtime.queueIds, Runtime.parkedIds] at h1 h2
    rw [Runtime.spawnAll]
    refine ih _ ⟨?_, ?_⟩
    · rw [spawn_snd]
      simp only [Runtime.queueIds, Runtime.parkedIds, List.map_append, List.map_cons,
        List.map_nil]
      exact nodup_insert_middle h1
        (fun hc => absurd (h2 _ hc) (Nat.lt_irrefl _))
    · rw [spawn_snd]
      simp only [Runtime.queueIds, Runtime.parkedIds, List.map_append, List.map_cons,
        List.map_nil, List.mem_append, List.mem_cons, List.not_mem_nil, or_false]
      rintro id ((hid | rfl) | hid)
      · exact Nat.lt_succ_of_lt (h2 id (List.mem_append.mpr (Or.inl hid)))
      · exact Nat.lt_succ_self _
      · exact Nat.lt_succ_of_lt (h2 id (List.mem_append.mpr (Or.inr hid)))

theorem registerAll_futures {V : Type} (fds : List Nat) :
    ∀ (s : Runtime V) (fid : Nat), (s.registerAll fid fds).futures = s.futures := by
  induction fds with
  | nil => intro s fid; rfl
  | cons fd fds ih => intro s fid; rw [Runtime.registerAll, ih]

theorem registerAll_queue {V : Type} (fds : List Nat) :
    ∀ (s : Runtime V) (fid : Nat), (s.registerAll fid fds).new_futures = s.new_futures := by
  induction fds with
  | nil => intro s fid; rfl
  | cons fd fds ih => intro s fid; rw [Runtime.registerAll, ih]

theorem registerAll_gen {V : Type} (fds : List Nat) :
    ∀ (s : Runtime V) (fid : Nat),
      (s.registerAll fid fds).future_id_generator = s.future_id_generator := by
  induction fds with
  | nil => intro s fid; rfl
  | cons fd fds ih => intro s fid; rw [Runtime.registerAll, ih]

theorem applyPollEffects_futures {V : Type} (s : Runtime V) (fid : Nat)
    (sp : List (Task V)) (se : List V) (f : List Nat) :
    (s.applyPollEffects fid sp se f).futures = s.futures := by
  rw [Runtime.applyPollEffects]
  rw [registerAll_futures, spawnAll_futures]

theorem applyPollEffects_queue {V : Type} (s : Runtime V) (fid : Nat)
    (sp : List (Task V)) (se : List V) (f : List Nat) :
    (s.applyPollEffects fid sp se f).new_futures = (s.spawnAll sp).new_futures := by
  rw [Runtime.applyPollEffects]
  rw [registerAll_queue]

theorem applyPollEffects_gen {V : Type} (s : Runtime V) (fid : Nat)
    (sp : List (Task V)) (se : List V) (f : List Nat) :
    (s.applyPollEffects fid sp se f).future_id_generator =
      (s.spawnAll sp).future_id_generator := by
  rw [Runtime.applyPollEffects]
  rw [registerAll_gen]

theorem applyPollEffects_gen_le {V : Type} (s : Runtime V) (fid : Nat)
    (sp : List (Task V)) (se : List V) (f : List Nat) :
    s.future_id_generator.current ≤
      (s.applyPollEffects fid sp se f).future_id_generator.current := by
  rw [applyPollEffects_gen]
  exact spawnAll_gen_le sp s

theorem applyPollEffects_queue_mem {V : Type} {s : Runtime V} {fid : Nat}
    {sp : List (Task V)} {se : List V} {f : List Nat} {j : Nat}
    (h : j ∈ (s.applyPollEffects fid sp se f).queueIds) :
    j ∈ s.queueIds ∨ s.future_id_generator.current ≤ j := by
  refine spawnAll_queue_mem sp s j ?_
  simpa only [Runtime.queueIds, applyPollEffects_queue] using h

theorem applyPollEffects_sorted {V : Type} {s : Runtime V} (fid : Nat)
    (sp : List (Task V)) (se : List V) (f : List Nat) (h : SortedQueue s) :
    SortedQueue (s.applyPollEffects fid sp se f) := by
  have h2 := spawnAll_sorted sp s h
  unfold SortedQueue Runtime.queueIds at h2 ⊢
  rw [applyPollEffects_queue, applyPollEffects_gen]
  exact h2

theorem applyPollEffects_inv {V : Type} {s : Runtime V} (fid : Nat)
    (sp : List (Task V)) (se : List V) (f : List Nat) (h : IdInvariant s) :
    IdInvariant (s.applyPollEffects fid sp se f) := by
  have h2 := spawnAll_inv sp s h
  unfold IdInvariant Runtime.queueIds Runtime.parkedIds at h2 ⊢
  rw [applyPollEffects_queue, applyPollEffects_gen, applyPollEffects_futures,
    ← spawnAll_futures sp s]
  exact h2

theorem nodup_snoc {c : Nat} {l : List Nat} (h : l.Nodup) (hc : c ∉ l) :
    (l ++ [c]).Nodup := by
  have h2 := nodup_insert_middle (q := l) (p := []) (by simpa using h) (by simpa using hc)
  simpa using h2

theorem mem_removeId_map {α : Type} {j k : Nat} {l : List (Nat × α)}
    (h : j ∈ (removeId k l).map Prod.fst) : j ∈ l.map Prod.fst :=
  ((removeId_sublist k l).map Prod.fst).subset h

theorem insertId_of_not_mem {α : Type} {k : Nat} {l : List (Nat × α)} (v : α)
    (h : k ∉ l.map Prod.fst) : insertId k v l = l ++ [(k, v)] := by
  rw [insertId, removeId_eq_of_not_mem h]

/-- Changing only the fd allocator and the epoll interest list does not
affect the id invariant (it only concerns the FIFO, the parked map and the
generator). -/
theorem IdInvariant_fdreg {V : Type} {s : Runtime V} (n : Nat) (r : List (Nat × Nat))
    (h : IdInvariant s) : IdInvariant { s with nextFd := n, registrations := r } := h

/-- As `IdInvariant_fdreg`, for the queue-order invariant. -/
theorem SortedQueue_fdreg {V : Type} {s : Runtime V} (n : Nat) (r : List (Nat × Nat))
    (h : SortedQueue s) : SortedQueue { s with nextFd := n, registrations := r } := h

/-! ### Characterizations of the continuing loop iterations -/

/-- Everything an admit-and-poll iteration that continues can have done:
the polled task registers the minted waker eventfd, performs its effects
and, when pending, is inserted into the parked map; the trace is exactly
one first-poll of its id. -/
theorem pollNewFuture_next {V : Type} {s s2 : Runtime V} {fid : Nat} {t : Task V}
    {ev : List Event} (h : s.pollNewFuture fid t = StepRes.next s2 ev) :
    ∃ sp se f rest regs,
      t = Task.node sp se f rest ∧
      Epoll.add s.registrations s.nextFd fid = Except.ok regs ∧
      ev = [Event.firstPoll fid] ∧
      ((rest = none ∧
          s2 = Runtime.applyPollEffects { s with nextFd := s.nextFd + 1, registrations := regs }
                 fid sp se f) ∨
        (∃ t2, rest = some t2 ∧
          s2 = { Runtime.applyPollEffects { s with nextFd := s.nextFd + 1, registrations := regs }
                   fid sp se f with
                 futures := insertId fid (s.nextFd, t2)
                   (Runtime.applyPollEffects
                     { s with nextFd := s.nextFd + 1, registrations := regs }
                     fid sp se f).futures }) ) := by
  rw [Runtime.pollNewFuture] at h
  cases hadd : Epoll.add s.registrations s.nextFd fid with
  | error e => rw [hadd] at h; exact absurd h (by simp)
  | ok regs =>
    rw [hadd] at h
    cases t with
    | node sp se f rest =>
      cases rest with
      | none =>
        injection h with h1 h2
        exact ⟨sp, se, f, none, regs, rfl, rfl, h2.symm, Or.inl ⟨rfl, h1.symm⟩⟩
      | some t2 =>
        injection h with h1 h2
        exact ⟨sp, se, f, some t2, regs, rfl, rfl, h2.symm, Or.inr ⟨t2, rfl, h1.symm⟩⟩

/-- Everything a block-and-resume iteration that continues can have done:
either the returned id was unknown (warn, state untouched) or the parked
task it names was re-polled, with removal on `Ready` and an in-place
continuation on `Pending`; the trace never contains a first-poll. -/
theorem waitBranch_next {V : Type} {s s2 : Runtime V} {oracle oracle2 : List WaitResult}
    {ev : List Event} (h : s.waitBranch oracle = (StepRes.next s2 ev, oracle2)) :
    (s2 = s ∧ ∃ fid, ev = [Event.waitCall, Event.warnUnknown fid]) ∨
      (∃ fid wfd sp se f k,
        lookupId fid s.futures = some (wfd, Task.node sp se f k) ∧
        ev = [Event.waitCall, Event.repoll fid] ∧
        ((k = none ∧
            s2 = { s.applyPollEffects fid sp se f with
                   futures := removeId fid (s.applyPollEffects fid sp se f).futures }) ∨
          (∃ t2, k = some t2 ∧
            s2 = { s.applyPollEffects fid sp se f with
                   futures := insertId fid (wfd, t2)
                     (s.applyPollEffects fid sp se f).futures }))) := by
  rw [Runtime.waitBranch.eq_def] at h
  cases oracle with
  | nil => exact absurd h (by simp)
  | cons w rest =>
    cases w with
    | fail => exact absurd h (by simp)
    | ready fid =>
      cases hl : lookupId fid s.futures with
      | none =>
        simp only [hl] at h
        injection h with h1 h2
        injection h1 with h3 h4
        exact Or.inl ⟨h3.symm, fid, h4.symm⟩
      | some p =>
        obtain ⟨wfd, t⟩ := p
        cases t with
        | node sp se f k =>
          simp only [hl] at h
          cases k with
          | none =>
            injection h with h1 h2
            injection h1 with h3 h4
            exact Or.inr ⟨fid, wfd, sp, se, f, none, hl, h4.symm, Or.inl ⟨rfl, h3.symm⟩⟩
          | some t2 =>
            injection h with h1 h2
            injection h1 with h3 h4
            exact Or.inr ⟨fid, wfd, sp, se, f, some t2, hl, h4.symm,
              Or.inr ⟨t2, rfl, h3.symm⟩⟩

/-- An id invariant implies the claimed disjointness of the FIFO and the
parked map. -/
theorem IdInvariant_disjoint {V : Type} {s : Runtime V} (h : IdInvariant s) (i : Nat) :
    ¬(i ∈ s.queueIds ∧ i ∈ s.parkedIds) := by
  rintro ⟨hq, hp⟩
  have h3 := h.1
  rw [List.nodup_append] at h3
  exact h3.2.2 hq hp

/-- A continuing iteration of the full loop body is either an
admit-and-poll of the FIFO head or a block-and-resume with an empty FIFO. -/
theorem blockStep_next {V : Type} {s s2 : Runtime V} {oracle oracle2 : List WaitResult}
    {ev : List Event} (h : s.blockStep oracle = (StepRes.next s2 ev, oracle2)) :
    (∃ fid t tail, s.new_futures = (fid, t) :: tail ∧ oracle2 = oracle ∧
        Runtime.pollNewFuture { s with new_futures := tail } fid t = StepRes.next s2 ev) ∨
      (s.new_futures = [] ∧ s.waitBranch oracle = (StepRes.next s2 ev, oracle2)) := by
  cases hq : s.new_futures with
  | nil =>
    rw [Runtime.blockStep] at h
    rw [hq] at h
    by_cases hf : s.futures.isEmpty = true
    · rw [if_pos hf] at h
      exact absurd h (by simp)
    · rw [if_neg hf] at h
      exact Or.inr ⟨rfl, h⟩
  | cons p tail =>
    obtain ⟨fid, t⟩ := p
    rw [Runtime.blockStep] at h
    rw [hq] at h
    injection h with h1 h2
    exact Or.inl ⟨fid, t, tail, rfl, h2.symm, h1⟩


/-- Claim C4, counterexample: with the eventfd counter at its kernel maximum
`2 ^ 64 - 2`, a `write(1)` is refused with would-block, and
`GuillotineWaker::wake` then panics (via its `expect`) instead of treating
the would-block as "already signaled" success, contrary to the claim. -/
theorem wake_wouldblock_panics :
    EventFd.write (2 ^ 64 - 2) 1 = Except.error EventFdWriteError.wouldBlock ∧
      GuillotineWaker.wake (2 ^ 64 - 2) = PanicOr.panicked :=
  ⟨rfl, rfl⟩

/-- Claim C4, amended: `wake` performs a single 8-byte write of the value 1
to its event-fd; it succeeds exactly when the kernel accepts the write
(the counter can absorb +1) and panics on every kernel error — including
would-block, which is *not* swallowed. -/
theorem wake_single_write_one (c : Nat) :
    GuillotineWaker.wake c =
      if c + 1 ≤ 2 ^ 64 - 2 then PanicOr.ok (c + 1) else PanicOr.panicked := by
  have h1 : ¬ (1 = 2 ^ 64 - 1) := by decide
  unfold GuillotineWaker.wake EventFd.write
  rw [if_neg h1]
  by_cases h : 2 ^ 64 - 2 < c + 1
  · rw [if_pos h]
    exact (if_neg (by omega)).symm
  · rw [if_neg h]
    exact (if_pos (by omega)).symm

/-- Claim C5: registering an fd that is already in the epoll interest list
is a no-op — the kernel's `EEXIST` is swallowed by
`register_file_descriptor`, the interest list is returned unchanged, and
the fd stays associated with the task id it already had. -/
theorem register_already_present (regs : List (Nat × Nat)) (fd i j : Nat)
    (h : lookupId fd regs = some j) :
    RuntimeContext.register_file_descriptor regs fd i = regs ∧
      lookupId fd (RuntimeContext.register_file_descriptor regs fd i) = some j := by
  have hs : (lookupId fd regs).isSome = true := by rw [h]; rfl
  constructor <;>
    simp [RuntimeContext.register_file_descriptor, Epoll.add, hs, h]

/-- Witness for `register_already_present` at a concrete interest list. -/
theorem register_already_present_witness :
    RuntimeContext.register_file_descriptor [(3, 7)] 3 9 = [(3, 7)] ∧
      lookupId 3 (RuntimeContext.register_file_descriptor [(3, 7)] 3 9) = some 7 :=
  register_already_present [(3, 7)] 3 9 7 rfl

/-- Claim C6, counterexample: `Sleep` is *not* stateless about registration.
Its first would-block poll returns `Pending` and registers the timer fd;
the very next would-block poll again returns `Pending` but does **not**
call `register_file_descriptor` (third component `false`), because the
future's `RegisteredState` flag is now `Registered`. -/
theorem sleep_second_pending_poll_no_register :
    (Sleep.poll (Sleep.poll ⟨RegisteredState.unregistered⟩ TimerRead.wouldBlock).2.1
        TimerRead.wouldBlock).1 = SleepResult.pending ∧
      (Sleep.poll (Sleep.poll ⟨RegisteredState.unregistered⟩ TimerRead.wouldBlock).2.1
        TimerRead.wouldBlock).2.2 = false := by
  constructor <;> decide

/-- Claim C6, amended: `Sleep` and `Tick` each track a registration flag and
call `register` only on the *first* poll that returns `Pending`: a
`Pending` poll registers the timer fd exactly when the flag was still
`Unregistered`, and after any `Pending` poll the flag is `Registered` (so
later `Pending` polls never re-register). -/
theorem leaf_register_only_first_pending (s : Sleep) (t : Tick) (r r2 : TimerRead)
    (hs : (s.poll r).1 = SleepResult.pending) (ht : (t.poll r2).1 = TickResult.pending) :
    ((s.poll r).2.2 = true ↔ s.state = RegisteredState.unregistered) ∧
      (s.poll r).2.1.state = RegisteredState.registered ∧
      ((t.poll r2).2.2 = true ↔ t.state = RegisteredState.unregistered) ∧
      (t.poll r2).2.1.state = RegisteredState.registered := by
  obtain ⟨ss⟩ := s
  obtain ⟨ts⟩ := t
  cases r <;> cases r2 <;> cases ss <;> cases ts <;>
    simp_all [Sleep.poll, Tick.poll]

/-- Witness for `leaf_register_only_first_pending`: a fresh `Sleep` and an
already-registered `Tick`, both polled while the timer has not expired. -/
theorem leaf_register_only_first_pending_witness :
    ((Sleep.poll ⟨RegisteredState.unregistered⟩ TimerRead.wouldBlock).2.2 = true ↔
        (Sleep.mk RegisteredState.unregistered).state = RegisteredState.unregistered) ∧
      (Sleep.poll ⟨RegisteredState.unregistered⟩ TimerRead.wouldBlock).2.1.state =
        RegisteredState.registered ∧
      ((Tick.poll ⟨RegisteredState.registered⟩ TimerRead.wouldBlock).2.2 = true ↔
        (Tick.mk RegisteredState.registered).state = RegisteredState.unregistered) ∧
      (Tick.poll ⟨RegisteredState.registered⟩ TimerRead.wouldBlock).2.1.state =
        RegisteredState.registered :=
  leaf_register_only_first_pending ⟨RegisteredState.unregistered⟩
    ⟨RegisteredState.registered⟩ TimerRead.wouldBlock TimerRead.wouldBlock
    (by decide) (by decide)

/-- Claim C9: `JoinHandle::poll` maps *every* failed `try_recv` — the
channel being empty as well as the sender having been dropped
(disconnected) — to `Pending`, never to a completion; a handle whose task
never sends is therefore never ready. -/
theorem join_handle_poll_err_pending (T : Type) (e : TryRecvError) :
    JoinHandle.poll (T := T) (Except.error e) = PollRes.pending ∧
      ∀ v : T, JoinHandle.poll (T := T) (Except.error e) ≠ PollRes.ready v := by
  constructor
  · rfl
  · intro v h
    exact PollRes.noConfusion h

/-! ### Trace lemmas for the scheduling-order claim -/

theorem mem_firstPollIds {i : Nat} {evs : List Event} :
    i ∈ firstPollIds evs ↔ Event.firstPoll i ∈ evs := by
  rw [firstPollIds, List.mem_filterMap]
  constructor
  · rintro ⟨e, he, hfe⟩
    cases e <;> simp_all
  · intro h
    exact ⟨Event.firstPoll i, h, rfl⟩

theorem firstPollIds_append (l1 l2 : List Event) :
    firstPollIds (l1 ++ l2) = firstPollIds l1 ++ firstPollIds l2 := by
  simp [firstPollIds, List.filterMap_append]

/-- A block-and-resume iteration never first-polls anything. -/
theorem waitBranch_no_firstPoll {V : Type} (s : Runtime V) (oracle : List WaitResult)
    (i : Nat) : Event.firstPoll i ∉ ((s.waitBranch oracle).1).events := by
  rw [Runtime.waitBranch.eq_def]
  cases oracle with
  | nil => simp [StepRes.events]
  | cons w rest =>
    cases w with
    | fail => simp [StepRes.events]
    | ready fid =>
      cases h : lookupId fid s.futures with
      | none => simp [h, StepRes.events]
      | some p =>
        obtain ⟨wfd, t⟩ := p
        cases t with
        | node sp se f k => cases k <;> simp [h, StepRes.events]

/-- An admit-and-poll iteration only ever first-polls the id it popped. -/
theorem pollNewFuture_firstPoll {V : Type} {s : Runtime V} {fid : Nat} {t : Task V}
    {i : Nat} (hi : Event.firstPoll i ∈ (s.pollNewFuture fid t).events) : i = fid := by
  rw [Runtime.pollNewFuture] at hi
  cases hadd : Epoll.add s.registrations s.nextFd fid with
  | error e =>
    rw [hadd] at hi
    simp [StepRes.events] at hi
  | ok regs =>
    rw [hadd] at hi
    cases t with
    | node sp se f rest =>
      cases rest with
      | none => simpa [StepRes.events] using hi
      | some t2 => simpa [StepRes.events] using hi

/-- An admit-and-poll iteration never calls `wait`. -/
theorem pollNewFuture_no_waitCall {V : Type} (s : Runtime V) (fid : Nat) (t : Task V) :
    Event.waitCall ∉ (s.pollNewFuture fid t).events := by
  rw [Runtime.pollNewFuture]
  cases Epoll.add s.registrations s.nextFd fid with
  | error e => simp [StepRes.events]
  | ok regs =>
    cases t with
    | node sp se f rest => cases rest <;> simp [StepRes.events]

/-- `epoll_wait` is reached only in iterations whose `new_futures` FIFO was
empty: a `waitCall` in the trace of a step implies the FIFO was drained. -/
theorem blockStep_waitCall_queue_empty {V : Type} (s : Runtime V)
    (oracle : List WaitResult)
    (h : Event.waitCall ∈ ((s.blockStep oracle).1).events) : s.new_futures = [] := by
  cases hq : s.new_futures with
  | nil => rfl
  | cons p tail =>
    obtain ⟨fid, t⟩ := p
    rw [Runtime.blockStep] at h
    rw [hq] at h
    exact absurd h (pollNewFuture_no_waitCall _ _ _)

/-- Every first-poll recorded by a step is of an id that was queued in the
FIFO when the iteration began. -/
theorem blockStep_firstPoll_queue {V : Type} {s : Runtime V} {oracle : List WaitResult}
    {r : StepRes V} {oracle2 : List WaitResult} (h : s.blockStep oracle = (r, oracle2))
    {i : Nat} (hi : Event.firstPoll i ∈ r.events) : i ∈ s.queueIds := by
  cases hq : s.new_futures with
  | nil =>
    rw [Runtime.blockStep] at h
    rw [hq] at h
    by_cases hf : s.futures.isEmpty = true
    · rw [if_pos hf] at h
      have h5 : ((StepRes.halt : StepRes V), oracle) = (r, oracle2) := h
      injection h5 with h1 h2
      subst h1
      simp [StepRes.events] at hi
    · rw [if_neg hf] at h
      have h5 : s.waitBranch oracle = (r, oracle2) := h
      have h3 := waitBranch_no_firstPoll s oracle i
      rw [h5] at h3
      exact absurd hi h3
  | cons p tail =>
    obtain ⟨fid, t⟩ := p
    rw [Runtime.blockStep] at h
    rw [hq] at h
    have h5 : ({ s with new_futures := tail }.pollNewFuture fid t, oracle) =
        (r, oracle2) := h
    injection h5 with h1 h2
    subst h1
    have h4 := pollNewFuture_firstPoll hi
    subst h4
    simp [Runtime.queueIds, hq]

/-- Queue-membership and generator tracking for a continuing admit-and-poll
iteration, phrased at the `pollNewFuture` level. -/
theorem pollNewFuture_next_tracking {V : Type} {s s2 : Runtime V} {fid : Nat}
    {t : Task V} {ev : List Event} (h : s.pollNewFuture fid t = StepRes.next s2 ev) :
    (∀ j ∈ s2.queueIds, j ∈ s.queueIds ∨ s.future_id_generator.current ≤ j) ∧
      s.future_id_generator.current ≤ s2.future_id_generator.current ∧
      ev = [Event.firstPoll fid] := by
  rcases pollNewFuture_next h with ⟨sp, se, f, rest, regs, ht, hadd, hev, hcase⟩
  have hmemb : ∀ j ∈ (Runtime.applyPollEffects
      { s with nextFd := s.nextFd + 1, registrations := regs }
      fid sp se f).queueIds, j ∈ s.queueIds ∨ s.future_id_generator.current ≤ j := by
    intro j hj
    rcases applyPollEffects_queue_mem hj with hin | hge
    · exact Or.inl hin
    · exact Or.inr hge
  have hgen : s.future_id_generator.current ≤ (Runtime.applyPollEffects
      { s with nextFd := s.nextFd + 1, registrations := regs }
      fid sp se f).future_id_generator.current :=
    applyPollEffects_gen_le { s with nextFd := s.nextFd + 1, registrations := regs }
      fid sp se f
  rcases hcase with ⟨hrest, hs2⟩ | ⟨t2, hrest, hs2⟩ <;> subst hs2 <;>
    exact ⟨hmemb, hgen, hev⟩

/-- Queue-membership and generator tracking for any continuing iteration. -/
theorem blockStep_next_tracking {V : Type} {s s2 : Runtime V}
    {oracle oracle2 : List WaitResult} {ev : List Event}
    (h : s.blockStep oracle = (StepRes.next s2 ev, oracle2)) :
    (∀ j ∈ s2.queueIds, j ∈ s.queueIds ∨ s.future_id_generator.current ≤ j) ∧
      s.future_id_generator.current ≤ s2.future_id_generator.current := by
  rcases blockStep_next h with ⟨fid, t, tail, hq, ho, hpoll⟩ | ⟨hq, hwait⟩
  · obtain ⟨htr1, htr2, -⟩ := pollNewFuture_next_tracking hpoll
    constructor
    · intro j hj
      rcases htr1 j hj with hin | hge
      · refine Or.inl ?_
        simp only [Runtime.queueIds, hq, List.map_cons, List.mem_cons]
        exact Or.inr (by simpa [Runtime.queueIds] using hin)
      · exact Or.inr hge
    · exact htr2
  · rcases waitBranch_next hwait with ⟨hs2, -⟩ | ⟨fid, wfd, sp, se, f, k, hl, hev, hcase⟩
    · subst hs2
      exact ⟨fun j hj => Or.inl hj, Nat.le_refl _⟩
    · have hmemb : ∀ j ∈ (s.applyPollEffects fid sp se f).queueIds,
          j ∈ s.queueIds ∨ s.future_id_generator.current ≤ j :=
        fun j hj => applyPollEffects_queue_mem hj
      have hgen := applyPollEffects_gen_le s fid sp se f
      rcases hcase with ⟨hk, hs2⟩ | ⟨t2, hk, hs2⟩ <;> subst hs2 <;> exact ⟨hmemb, hgen⟩

/-- Sorted-queue preservation for a continuing iteration, plus: the id an
iteration first-polls is below every id still (or newly) queued and below
the generator. -/
theorem blockStep_next_sorted {V : Type} {s s2 : Runtime V}
    {oracle oracle2 : List WaitResult} {ev : List Event} (hs : SortedQueue s)
    (h : s.blockStep oracle = (StepRes.next s2 ev, oracle2)) :
    SortedQueue s2 ∧ ∀ i, Event.firstPoll i ∈ ev →
      (∀ j ∈ s2.queueIds, i < j) ∧ i < s.future_id_generator.current := by
  rcases blockStep_next h with ⟨fid, t, tail, hq, ho, hpoll⟩ | ⟨hq, hwait⟩
  · rcases pollNewFuture_next hpoll with ⟨sp, se, f, rest, regs, ht, hadd, hev, hcase⟩
    have hpair : (fid :: tail.map Prod.fst).Pairwise (· < ·) := by
      have := hs.1
      simpa [Runtime.queueIds, hq] using this
    have hfid_tail : ∀ j ∈ tail.map Prod.fst, fid < j := (List.pairwise_cons.mp hpair).1
    have hfid_gen : fid < s.future_id_generator.current := by
      refine hs.2 fid ?_
      simp [Runtime.queueIds, hq]
    have hsmid : SortedQueue { s with new_futures := tail } := by
      constructor
      · simpa [Runtime.queueIds] using (List.pairwise_cons.mp hpair).2
      · intro id hid
        refine hs.2 id ?_
        simp only [Runtime.queueIds, hq, List.map_cons, List.mem_cons]
        exact Or.inr (by simpa [Runtime.queueIds] using hid)
    have happly : SortedQueue (Runtime.applyPollEffects
        { { s with new_futures := tail } with
            nextFd := Runtime.nextFd { s with new_futures := tail } + 1,
            registrations := regs } fid sp se f) :=
      applyPollEffects_sorted fid sp se f (SortedQueue_fdreg _ _ hsmid)
    have hqlt : ∀ j ∈ (Runtime.applyPollEffects
        { { s with new_futures := tail } with
            nextFd := Runtime.nextFd { s with new_futures := tail } + 1,
            registrations := regs } fid sp se f).queueIds, fid < j := by
      intro j hj
      rcases applyPollEffects_queue_mem hj with hin | hge
      · exact hfid_tail j (by simpa [Runtime.queueIds] using hin)
      · have hge2 : s.future_id_generator.current ≤ j := hge
        omega
    rcases hcase with ⟨hrest, hs2⟩ | ⟨t2, hrest, hs2⟩ <;> subst hs2 <;>
      refine ⟨happly, ?_⟩ <;>
      · intro i hi
        rw [hev] at hi
        simp only [List.mem_cons, List.not_mem_nil, or_false,
          Event.firstPoll.injEq] at hi
        subst hi
        exact ⟨hqlt, hfid_gen⟩
  · rcases waitBranch_next hwait with ⟨hs2, fid, hev⟩ | ⟨fid, wfd, sp, se, f, k, hl, hev, hcase⟩
    · subst hs2
      refine ⟨hs, ?_⟩
      intro i hi
      rw [hev] at hi
      simp at hi
    · have happly : SortedQueue (s.applyPollEffects fid sp se f) :=
        applyPollEffects_sorted fid sp se f hs
      rcases hcase with ⟨hk, hs2⟩ | ⟨t2, hk, hs2⟩ <;> subst hs2 <;>
        exact ⟨happly, fun i hi => by rw [hev] at hi; simp at hi⟩

theorem firstPollIds_eq_nil {evs : List Event}
    (h : ∀ i, Event.firstPoll i ∉ evs) : firstPollIds evs = [] := by
  cases he : firstPollIds evs with
  | nil => rfl
  | cons i rest =>
    exact absurd (mem_firstPollIds.mp (he ▸ List.mem_cons_self i rest)) (h i)

/-- The first-poll trace of one step is empty or the single popped id. -/
theorem blockStep_events_shape {V : Type} {s : Runtime V} {oracle : List WaitResult}
    {r : StepRes V} {oracle2 : List WaitResult} (h : s.blockStep oracle = (r, oracle2)) :
    firstPollIds r.events = [] ∨
      ∃ fid t tail, s.new_futures = (fid, t) :: tail ∧ firstPollIds r.events = [fid] := by
  cases hq : s.new_futures with
  | nil =>
    rw [Runtime.blockStep] at h
    rw [hq] at h
    by_cases hf : s.futures.isEmpty = true
    · rw [if_pos hf] at h
      have h5 : ((StepRes.halt : StepRes V), oracle) = (r, oracle2) := h
      injection h5 with h1 h2
      subst h1
      exact Or.inl rfl
    · rw [if_neg hf] at h
      have h5 : s.waitBranch oracle = (r, oracle2) := h
      refine Or.inl (firstPollIds_eq_nil ?_)
      intro i
      have h3 := waitBranch_no_firstPoll s oracle i
      rw [h5] at h3
      exact h3
  | cons p tail =>
    obtain ⟨fid, t⟩ := p
    rw [Runtime.blockStep] at h
    rw [hq] at h
    have h5 : ({ s with new_futures := tail }.pollNewFuture fid t, oracle) =
        (r, oracle2) := h
    injection h5 with h1 h2
    subst h1
    rw [Runtime.pollNewFuture]
    cases hadd : Epoll.add (Runtime.registrations { s with new_futures := tail })
        (Runtime.nextFd { s with new_futures := tail }) fid with
    | error e => exact Or.inl (by simp [StepRes.events, firstPollIds])
    | ok regs =>
      cases t with
      | node sp se f rest =>
        cases rest with
        | none =>
          exact Or.inr ⟨fid, Task.node sp se f none, tail, rfl,
            by simp [StepRes.events, firstPollIds]⟩
        | some t2 =>
          exact Or.inr ⟨fid, Task.node sp se f (some t2), tail, rfl,
            by simp [StepRes.events, firstPollIds]⟩

/-- Every id first-polled anywhere in a run was queued at the start of the
run or had not yet been handed out by the generator. -/
theorem blockRun_firstPoll_bound {V : Type} :
    ∀ (fuel : Nat) (s : Runtime V) (oracle : List WaitResult) (i : Nat),
      i ∈ firstPollIds (Runtime.blockRun fuel s oracle).2 →
      i ∈ s.queueIds ∨ s.future_id_generator.current ≤ i := by
  intro fuel
  induction fuel with
  | zero =>
    intro s oracle i hi
    simp [Runtime.blockRun, firstPollIds] at hi
  | succ n ih =>
    intro s oracle i hi
    rw [Runtime.blockRun] at hi
    cases hstep : s.blockStep oracle with
    | mk r oracle2 =>
      rw [hstep] at hi
      cases r with
      | halt => simp [firstPollIds] at hi
      | panicked ev =>
        exact Or.inl (blockStep_firstPoll_queue hstep (mem_firstPollIds.mp hi))
      | blocked ev =>
        exact Or.inl (blockStep_firstPoll_queue hstep (mem_firstPollIds.mp hi))
      | next s2 ev =>
        cases hrun : Runtime.blockRun n s2 oracle2 with
        | mk rr evs =>
          have hi1 : i ∈ firstPollIds
              (match Runtime.blockRun n s2 oracle2 with
                | (r, evs) => (r, ev ++ evs)).2 := hi
          rw [hrun] at hi1
          have hi2 : i ∈ firstPollIds (ev ++ evs) := hi1
          rw [firstPollIds_append] at hi2
          rcases List.mem_append.mp hi2 with hi3 | hi3
          · exact Or.inl (blockStep_firstPoll_queue hstep (mem_firstPollIds.mp hi3))
          · have ih2 := ih s2 oracle2 i (by rw [hrun]; exact hi3)
            obtain ⟨htr1, htr2⟩ := blockStep_next_tracking hstep
            rcases ih2 with h2 | h2
            · rcases htr1 i h2 with h3 | h3
              · exact Or.inl h3
              · exact Or.inr h3
            · exact Or.inr (Nat.le_trans htr2 h2)

/-- In any run from a state whose FIFO is sorted in spawn order, the ids
first-polled across the whole run form a strictly increasing sequence. -/
theorem blockRun_firstPoll_pairwise {V : Type} :
    ∀ (fuel : Nat) (s : Runtime V) (oracle : List WaitResult), SortedQueue s →
      List.Pairwise (· < ·) (firstPollIds (Runtime.blockRun fuel s oracle).2) := by
  intro fuel
  induction fuel with
  | zero =>
    intro s oracle hs
    simp [Runtime.blockRun, firstPollIds]
  | succ n ih =>
    intro s oracle hs
    rw [Runtime.blockRun]
    cases hstep : s.blockStep oracle with
    | mk r oracle2 =>
      cases r with
      | halt => simp [firstPollIds]
      | panicked ev =>
        show List.Pairwise (· < ·) (firstPollIds ev)
        rcases blockStep_events_shape hstep with he | ⟨fid, t, tail, hq, he⟩
        · have he2 : firstPollIds ev = [] := he
          rw [he2]
          exact List.Pairwise.nil
        · have he2 : firstPollIds ev = [fid] := he
          rw [he2]
          exact List.pairwise_singleton _ _
      | blocked ev =>
        show List.Pairwise (· < ·) (firstPollIds ev)
        rcases blockStep_events_shape hstep with he | ⟨fid, t, tail, hq, he⟩
        · have he2 : firstPollIds ev = [] := he
          rw [he2]
          exact List.Pairwise.nil
        · have he2 : firstPollIds ev = [fid] := he
          rw [he2]
          exact List.pairwise_singleton _ _
      | next s2 ev =>
        cases hrun : Runtime.blockRun n s2 oracle2 with
        | mk rr evs =>
          have hsorted := blockStep_next_sorted hs hstep
          show List.Pairwise (· < ·) (firstPollIds
            (match Runtime.blockRun n s2 oracle2 with | (r, evs) => (r, ev ++ evs)).2)
          rw [hrun]
          show List.Pairwise (· < ·) (firstPollIds (ev ++ evs))
          rw [firstPollIds_append]
          have hpair2 : List.Pairwise (· < ·) (firstPollIds evs) := by
            have h6 := ih s2 oracle2 hsorted.1
            rw [hrun] at h6
            exact h6
          rcases blockStep_events_shape hstep with he | ⟨fid, t, tail, hq, he⟩
          · have he2 : firstPollIds ev = [] := he
            rw [he2]
            simpa using hpair2
          · have he2 : firstPollIds ev = [fid] := he
            rw [he2, List.singleton_append, List.pairwise_cons]
            refine ⟨?_, hpair2⟩
            intro j hj
            have hj2 := blockRun_firstPoll_bound n s2 oracle2 j (by rw [hrun]; exact hj)
            have hfp : Event.firstPoll fid ∈ ev :=
              mem_firstPollIds.mp (by rw [he2]; exact List.mem_cons_self _ _)
            have hlt := hsorted.2 fid hfp
            obtain ⟨htr1, htr2⟩ := blockStep_next_tracking hstep
            rcases hj2 with hj2 | hj2
            · exact hlt.1 j hj2
            · exact Nat.lt_of_lt_of_le hlt.2 (Nat.le_trans htr2 hj2)

/-- Claim C3: starting from any state whose FIFO holds ids in spawn order
(as every reachable state does, ids being handed out by the incrementing
generator at `spawn` time and queued at the back), the executor first-polls
spawned tasks in spawn (FIFO) order — the first-poll trace of the whole run
is strictly increasing in id — and the readiness registry's `wait()` is
only ever reached in an iteration whose new-task FIFO was empty, so every
queued new task is polled before the loop blocks. -/
theorem spawned_tasks_polled_in_fifo_order {V : Type} (fuel : Nat) (s : Runtime V)
    (oracle : List WaitResult) (hs : SortedQueue s) :
    List.Pairwise (· < ·) (firstPollIds (Runtime.blockRun fuel s oracle).2) ∧
      ∀ (s3 : Runtime V) (oracle3 : List WaitResult),
        Event.waitCall ∈ ((s3.blockStep oracle3).1).events → s3.new_futures = [] :=
  ⟨blockRun_firstPoll_pairwise fuel s oracle hs,
    fun s3 oracle3 h => blockStep_waitCall_queue_empty s3 oracle3 h⟩

/-- Witness for `spawned_tasks_polled_in_fifo_order`: a runtime with one
queued task, run to completion. -/
theorem spawned_tasks_polled_in_fifo_order_witness :
    List.Pairwise (· < ·) (firstPollIds (Runtime.blockRun 2
      { future_id_generator := ⟨1⟩, nextFd := 0,
        new_futures := [(0, Task.node ([] : List (Task Nat)) [] [] none)],
        futures := [], registrations := [], channel := [] } []).2) ∧
      ∀ (s3 : Runtime Nat) (oracle3 : List WaitResult),
        Event.waitCall ∈ ((s3.blockStep oracle3).1).events → s3.new_futures = [] :=
  spawned_tasks_polled_in_fifo_order 2
    { future_id_generator := ⟨1⟩, nextFd := 0,
      new_futures := [(0, Task.node ([] : List (Task Nat)) [] [] none)],
      futures := [], registrations := [], channel := [] } []
    (by constructor <;> decide)

/-- Claim C7: across every continuing iteration of the executor loop, the
id invariant is preserved — so at every point between iterations each task
id appears in at most one of the new-task FIFO and the parked map — and
the id generator's value never decreases. -/
theorem executor_id_invariant {V : Type} (s s2 : Runtime V)
    (oracle oracle2 : List WaitResult) (ev : List Event)
    (hinv : IdInvariant s)
    (hstep : s.blockStep oracle = (StepRes.next s2 ev, oracle2)) :
    IdInvariant s2 ∧ (∀ i, ¬(i ∈ s2.queueIds ∧ i ∈ s2.parkedIds)) ∧
      s.future_id_generator.current ≤ s2.future_id_generator.current := by
  suffices hmain : IdInvariant s2 ∧
      s.future_id_generator.current ≤ s2.future_id_generator.current from
    ⟨hmain.1, fun i => IdInvariant_disjoint hmain.1 i, hmain.2⟩
  rcases blockStep_next hstep with ⟨fid, t, tail, hq, ho, hpoll⟩ | ⟨hq, hwait⟩
  · -- admit-and-poll path
    rcases pollNewFuture_next hpoll with ⟨sp, se, f, rest, regs, ht, hadd, hev, hcase⟩
    have h1x : (fid :: (tail.map Prod.fst ++ s.futures.map Prod.fst)).Nodup := by
      have := hinv.1
      simpa [Runtime.queueIds, Runtime.parkedIds, hq] using this
    have h2x : ∀ id ∈ fid :: (tail.map Prod.fst ++ s.futures.map Prod.fst),
        id < s.future_id_generator.current := by
      intro id hid
      refine hinv.2 id ?_
      simpa [Runtime.queueIds, Runtime.parkedIds, hq] using hid
    have hfid_lt : fid < s.future_id_generator.current :=
      h2x fid (List.mem_cons_self _ _)
    have hfid_nm : fid ∉ tail.map Prod.fst ++ s.futures.map Prod.fst :=
      (List.nodup_cons.mp h1x).1
    have hmidinv : IdInvariant { s with new_futures := tail } := by
      constructor
      · simpa [Runtime.queueIds, Runtime.parkedIds] using (List.nodup_cons.mp h1x).2
      · intro id hid
        refine h2x id (List.mem_cons_of_mem _ ?_)
        simpa [Runtime.queueIds, Runtime.parkedIds] using hid
    have happly : IdInvariant
        (Runtime.applyPollEffects
          { { s with new_futures := tail } with
              nextFd := Runtime.nextFd { s with new_futures := tail } + 1,
              registrations := regs } fid sp se f) :=
      applyPollEffects_inv fid sp se f (IdInvariant_fdreg _ _ hmidinv)
    have hgen : s.future_id_generator.current ≤
        (Runtime.applyPollEffects
          { { s with new_futures := tail } with
              nextFd := Runtime.nextFd { s with new_futures := tail } + 1,
              registrations := regs } fid sp se f).future_id_generator.current :=
      applyPollEffects_gen_le
        { { s with new_futures := tail } with
            nextFd := Runtime.nextFd { s with new_futures := tail } + 1,
            registrations := regs } fid sp se f
    rcases hcase with ⟨hrest, hs2⟩ | ⟨t2, hrest, hs2⟩
    · subst hs2
      exact ⟨happly, hgen⟩
    · -- the polled task is pending: inserted into the parked map
      have hnotq : fid ∉ (Runtime.applyPollEffects
          { { s with new_futures := tail } with
              nextFd := Runtime.nextFd { s with new_futures := tail } + 1,
              registrations := regs } fid sp se f).queueIds := by
        intro hfq
        rcases applyPollEffects_queue_mem hfq with hin | hge
        · exact hfid_nm (List.mem_append.mpr (Or.inl
            (by simpa [Runtime.queueIds] using hin)))
        · have hge2 : s.future_id_generator.current ≤ fid := hge
          omega
      have hnotp : fid ∉ (Runtime.applyPollEffects
          { { s with new_futures := tail } with
              nextFd := Runtime.nextFd { s with new_futures := tail } + 1,
              registrations := regs } fid sp se f).futures.map Prod.fst := by
        rw [applyPollEffects_futures]
        intro hfp
        exact hfid_nm (List.mem_append.mpr (Or.inr hfp))
      subst hs2
      constructor
      · constructor
        · simp only [Runtime.queueIds, Runtime.parkedIds,
            insertId_of_not_mem _ hnotp, List.map_append, List.map_cons, List.map_nil]
          rw [← List.append_assoc]
          refine nodup_snoc ?_ ?_
          · exact happly.1
          · intro hmem
            rcases List.mem_append.mp hmem with hmem | hmem
            · exact hnotq hmem
            · exact hnotp hmem
        · intro id hid
          simp only [Runtime.queueIds, Runtime.parkedIds,
            insertId_of_not_mem _ hnotp, List.map_append, List.map_cons, List.map_nil,
            List.mem_append, List.mem_cons, List.not_mem_nil, or_false] at hid
          rcases hid with hid | hid | rfl
          · exact happly.2 id (List.mem_append.mpr (Or.inl hid))
          · exact happly.2 id (List.mem_append.mpr (Or.inr hid))
          · exact Nat.lt_of_lt_of_le hfid_lt hgen
      · exact hgen
  · -- block-and-resume path
    rcases waitBranch_next hwait with ⟨hs2, -⟩ | ⟨fid, wfd, sp, se, f, k, hl, hev, hcase⟩
    · subst hs2
      exact ⟨hinv, Nat.le_refl _⟩
    · have hqnil : s.queueIds = [] := by simp [Runtime.queueIds, hq]
      have hfid_p : fid ∈ s.futures.map Prod.fst := lookupId_mem hl
      have hfid_lt : fid < s.future_id_generator.current :=
        hinv.2 fid (List.mem_append.mpr (Or.inr hfid_p))
      have happly : IdInvariant (s.applyPollEffects fid sp se f) :=
        applyPollEffects_inv fid sp se f hinv
      have hgen : s.future_id_generator.current ≤
          (s.applyPollEffects fid sp se f).future_id_generator.current :=
        applyPollEffects_gen_le s fid sp se f
      have hpark : (s.applyPollEffects fid sp se f).futures = s.futures :=
        applyPollEffects_futures s fid sp se f
      have hq_ge : ∀ j ∈ (s.applyPollEffects fid sp se f).queueIds,
          s.future_id_generator.current ≤ j := by
        intro j hj
        rcases applyPollEffects_queue_mem hj with hin | hge
        · rw [hqnil] at hin; exact absurd hin (List.not_mem_nil j)
        · exact hge
      rcases hcase with ⟨hk, hs2⟩ | ⟨t2, hk, hs2⟩
      · -- repolled task completed: removed from the parked map
        subst hs2
        constructor
        · constructor
          · refine List.Nodup.sublist ?_ happly.1
            exact List.Sublist.append_left
              ((removeId_sublist fid _).map Prod.fst) _
          · intro id hid
            simp only [Runtime.queueIds, Runtime.parkedIds, List.mem_append] at hid
            rcases hid with hid | hid
            · exact happly.2 id (List.mem_append.mpr (Or.inl hid))
            · exact happly.2 id (List.mem_append.mpr (Or.inr (mem_removeId_map hid)))
        · exact hgen
      · -- repolled task still pending: continuation replaces it in the map
        subst hs2
        constructor
        · constructor
          · simp only [Runtime.queueIds, Runtime.parkedIds, insertId,
              List.map_append, List.map_cons, List.map_nil]
            rw [← List.append_assoc]
            refine nodup_snoc ?_ ?_
            · refine List.Nodup.sublist ?_ happly.1
              exact List.Sublist.append_left
                ((removeId_sublist fid _).map Prod.fst) _
            · intro hmem
              rcases List.mem_append.mp hmem with hmem | hmem
              · exact absurd hfid_lt (by have := hq_ge fid hmem; omega)
              · exact not_mem_removeId fid _ hmem
          · intro id hid
            simp only [Runtime.queueIds, Runtime.parkedIds, insertId,
              List.map_append, List.map_cons, List.map_nil, List.mem_append,
              List.mem_cons, List.not_mem_nil, or_false] at hid
            rcases hid with hid | hid | rfl
            · exact happly.2 id (List.mem_append.mpr (Or.inl hid))
            · exact happly.2 id (List.mem_append.mpr (Or.inr (mem_removeId_map hid)))
            · exact Nat.lt_of_lt_of_le hfid_lt hgen
        · exact hgen

/-- Witness for `executor_id_invariant`: the invariant holds after the
iteration that admits and completes the single queued task. -/
theorem executor_id_invariant_witness :
    IdInvariant
        { future_id_generator := ⟨1⟩, nextFd := 1, new_futures := [],
          futures := [], registrations := [(0, 0)], channel := ([] : List Nat) } ∧
      (∀ i, ¬(i ∈ Runtime.queueIds
            { future_id_generator := ⟨1⟩, nextFd := 1,
              new_futures := [], futures := [], registrations := [(0, 0)],
              channel := ([] : List Nat) } ∧
          i ∈ Runtime.parkedIds
            { future_id_generator := ⟨1⟩, nextFd := 1,
              new_futures := [], futures := [], registrations := [(0, 0)],
              channel := ([] : List Nat) })) ∧
      (1 : Nat) ≤ 1 :=
  executor_id_invariant
    { future_id_generator := ⟨1⟩, nextFd := 0,
      new_futures := [(0, Task.node ([] : List (Task Nat)) [] [] none)],
      futures := [], registrations := [], channel := [] }
    { future_id_generator := ⟨1⟩, nextFd := 1, new_futures := [], futures := [],
      registrations := [(0, 0)], channel := [] }
    [] [] [Event.firstPoll 0]
    (by constructor <;> decide)
    rfl

end Guillotine
